import Mathlib

/-!
Verification of the RiptideOS VFS core (src/kernel/src/fs/*, src/kernel/src/drivers/fs/ram.rs)
against its natural-language specification.

The Rust code is shallowly embedded: pure fragments become Lean functions,
stateful fragments become explicit state passing.  `panic!`/`todo!`/`assert!`
paths are made visible through the `PanicOr` wrapper or through `Option`
results (`none` = assertion failure), never silently dropped.
-/

namespace Riptide

/-- IoError from src/kernel/src/fs/vfs.rs (lines 20-52). -/
inductive IoError where
  | OperationNotSupported
  | EntryNotFound
  | AlreadyExists
  | NotADirectory
  | NotAFile
  | InvalidPath
  | InvalidFile
  | InvalidMode
  | FileSystemTypeNotFound
  | NoRootDirectory
deriving DecidableEq, Repr

/-- FsNodeKind from src/kernel/src/fs/mod.rs. -/
inductive FsNodeKind where
  | Directory
  | File
  | CharDevice
  | BlockDevice
deriving DecidableEq, Repr

/-- FileMode from src/kernel/src/fs/mod.rs. -/
inductive FileMode where
  | Read
  | Write
  | Append
deriving DecidableEq, Repr

/-- FileMode::is_mutating from src/kernel/src/fs/mod.rs (lines 339-346). -/
def FileMode.is_mutating : FileMode → Bool
  | .Read => false
  | .Write => true
  | .Append => true

/-- Result of running Rust code that can panic (`todo!`, `assert!`). -/
inductive PanicOr (α : Type) where
  | panic (msg : String)
  | ret (a : α)
deriving DecidableEq, Repr

/-! ## Path parser (src/kernel/src/fs/path.rs) -/

def MAX_PATH_LENGTH : Nat := 4096

/-- Path from src/kernel/src/fs/path.rs: a list of segments. -/
structure Path where
  segments : List String
deriving DecidableEq, Repr

inductive PathParseError where
  | Empty
  | MaxLengthExceeded
deriving DecidableEq, Repr

/-- Rust `str::is_ascii`: every byte (equivalently, every scalar value) below 128. -/
def strIsAscii (s : String) : Bool := s.toList.all (fun c => c.toNat ≤ 127)

/-- Path::is_absolute: `self.segments.first().unwrap() == "/"`.  The parser
never produces an empty segment list, so the `unwrap` is modelled by `head?`. -/
def Path.is_absolute (p : Path) : Bool := p.segments.head? == some "/"

/-- Path::is_root from src/kernel/src/fs/path.rs. -/
def Path.is_root (p : Path) : Bool := p.is_absolute && p.segments.length == 1

/-- Rust `str::split(sep)` on a character list: splits on every occurrence of
`sep`, keeping empty segments (so consecutive separators yield empty
segments), and yields one (possibly empty) segment even for the empty input,
exactly as Rust's `split` iterator does. -/
def splitOnChar (sep : Char) : List Char → List (List Char)
  | [] => [[]]
  | c :: cs =>
    match splitOnChar sep cs with
    | [] => [[]]
    | seg :: rest =>
      if c = sep then [] :: seg :: rest
      else (c :: seg) :: rest

/-- `<Path as FromStr>::from_str` (src/kernel/src/fs/path.rs lines 43-70).
Note that a non-ASCII input hits `todo!("parse non-ascii paths")`, i.e. a
panic, before any other check.  The string is processed as its character
list; for ASCII input Rust's byte length equals the character count, and
`s[1..]` is `drop 1`. -/
def Path.from_str (s : String) : PanicOr (Except PathParseError Path) :=
  let cs := s.toList
  if cs.all (fun c => c.toNat ≤ 127) then
    if cs.isEmpty then .ret (.error .Empty)
    else if cs.length > MAX_PATH_LENGTH then .ret (.error .MaxLengthExceeded)
    else
      let head : List String := if cs.head? = some '/' then ["/"] else []
      let rest := if cs.head? = some '/' then cs.drop 1 else cs
      let tail : List String :=
        if rest.isEmpty then [] else (splitOnChar '/' rest).map String.mk
      .ret (.ok ⟨head ++ tail⟩)
  else
    .panic "parse non-ascii paths"

example : Path.from_str "/" = .ret (.ok ⟨["/"]⟩) := by rfl
example : Path.from_str "/a//b" = .ret (.ok ⟨["/", "a", "", "b"]⟩) := by rfl
example : Path.from_str "a/b" = .ret (.ok ⟨["a", "b"]⟩) := by rfl
example : Path.from_str "" = .ret (.error .Empty) := by rfl
example : Path.is_absolute ⟨["/", "dev"]⟩ = true := by decide

/-! ## Directory cache (src/kernel/src/fs/vfs.rs lines 556-707)

`DirectoryEntry` objects are allocated only by `DirectoryCache::insert`; the
table maps `(parent_entry_id_or_NULL, name)` to *weak* references.  Whether a
weak reference upgrades depends on whether any strong reference to the entry
is alive, which is decided outside the cache; the embedding therefore passes
a liveness oracle `live : Nat → Bool` (`live id = true` iff the entry with
that `entry_id` still has a strong reference, i.e. `Weak::upgrade` succeeds).
The cache additionally carries `entries`, a ghost log of every entry it ever
allocated, used only to state invariants; the Rust code has no such field. -/

/-- FsNode identity view: `(mount_id, node_id)` plus the node kind
(src/kernel/src/fs/mod.rs, struct FsNode; equality is `(id, mount_id)`). -/
structure NodeInfo where
  mount_id : Nat
  node_id : Nat
  kind : FsNodeKind
deriving DecidableEq, Repr

/-- DirectoryEntry (vfs.rs lines 560-581): `entry_id`, name, backing node and
the parent's `entry_id` (`none` for the root).  The `children` weak map is
not needed by any claim and is omitted.  `PartialEq` is `entry_id` equality. -/
structure DirectoryEntry where
  id : Nat
  name : String
  parent : Option Nat
  node : NodeInfo
deriving DecidableEq, Repr

/-- DirectoryEntryId::NULL (vfs.rs line 609): id 0 is the synthetic parent of
the root.  Fresh ids start at 1 (vfs.rs line 612). -/
def DirectoryEntryId.NULL : Nat := 0

/-- The directory-cache key of an entry: `(parent id or NULL, name)`
(vfs.rs lines 677-684). -/
def DirectoryEntry.key (e : DirectoryEntry) : Nat × String :=
  (e.parent.getD DirectoryEntryId.NULL, e.name)

/-- BTreeMap::insert on an association list: bind `k` to `v`, replacing any
existing binding of `k`. -/
def tableInsert {α : Type} (t : List ((Nat × String) × α)) (k : Nat × String) (v : α) :
    List ((Nat × String) × α) :=
  (k, v) :: t.filter (fun s => decide (s.1 ≠ k))

/-- BTreeMap::get on an association list. -/
def tableFind {α : Type} (t : List ((Nat × String) × α)) (k : Nat × String) : Option α :=
  match t with
  | [] => none
  | s :: rest => if s.1 = k then some s.2 else tableFind rest k

/-- DirectoryCache (vfs.rs lines 622-707).  `table` holds the weak slots as
entry ids; `next_id` is the `DirectoryEntryId::new` counter; `entries` is the
ghost allocation log (see section comment). -/
structure DirectoryCache where
  table : List ((Nat × String) × Nat)
  entries : List DirectoryEntry
  next_id : Nat
deriving DecidableEq, Repr

/-- DirectoryCache::lookup keyed by raw parent id (vfs.rs lines 692-695):
find the slot, then upgrade the weak reference (the `live` oracle). -/
def DirectoryCache.lookup_id (c : DirectoryCache) (live : Nat → Bool)
    (pid : Nat) (name : String) : Option Nat :=
  match tableFind c.table (pid, name) with
  | some wid => if live wid then some wid else none
  | none => none

/-- DirectoryCache::lookup (vfs.rs lines 692-695), keyed by the parent entry. -/
def DirectoryCache.lookup (c : DirectoryCache) (live : Nat → Bool)
    (parent : DirectoryEntry) (name : String) : Option Nat :=
  c.lookup_id live parent.id name

/-- DirectoryCache::get_root (vfs.rs lines 634-637): key `(NULL, "/")`. -/
def DirectoryCache.get_root (c : DirectoryCache) (live : Nat → Bool) : Option Nat :=
  c.lookup_id live DirectoryEntryId.NULL "/"

/-- DirectoryCache::insert (vfs.rs lines 640-688).  Returns `none` when one of
the two `assert!`s fires (no parent and name not `"/"`; or the key already
upgrades), otherwise the fresh entry and the updated cache.  The weak insert
into the parent's children map is omitted (see section comment). -/
def DirectoryCache.insert (c : DirectoryCache) (live : Nat → Bool)
    (parent : Option DirectoryEntry) (node : NodeInfo) (name : String) :
    Option (DirectoryEntry × DirectoryCache) :=
  if parent.isNone ∧ name ≠ "/" then none
  else if (match parent with
           | some p => (c.lookup live p name).isSome
           | none => false) then none
  else
    let e : DirectoryEntry := ⟨c.next_id, name, parent.map (·.id), node⟩
    some (e, ⟨tableInsert c.table e.key e.id, e :: c.entries, c.next_id + 1⟩)

/-- DirectoryCache::prune (vfs.rs lines 698-706): drop every table slot whose
weak reference is dead.  (The per-entry `prune_children` pass only touches
the omitted children maps.) -/
def DirectoryCache.prune (c : DirectoryCache) (live : Nat → Bool) : DirectoryCache :=
  ⟨c.table.filter (fun s => live s.2), c.entries, c.next_id⟩

/-- Well-formedness of a cache state, maintained by the id generator: every
allocated id is below the counter, table slots refer to allocated ids, the
log has no duplicate ids and the table no duplicate keys. -/
def CacheWF (c : DirectoryCache) : Prop :=
  (∀ e ∈ c.entries, e.id < c.next_id) ∧
  (∀ s ∈ c.table, s.2 < c.next_id) ∧
  (c.entries.map DirectoryEntry.id).Nodup ∧
  (c.table.map Prod.fst).Nodup

/-- The directory-cache uniqueness invariant (spec §3 invariant 1): for every
live entry, the slots whose weak reference upgrades to it (those holding its
id) are exactly one slot, keyed by the entry's own `(parent_or_NULL, name)`. -/
def CacheInv (c : DirectoryCache) (live : Nat → Bool) : Prop :=
  ∀ e ∈ c.entries, live e.id = true →
    c.table.filter (fun s => decide (s.2 = e.id)) = [(e.key, e.id)]

/-! Helper lemmas about association-list tables. -/

theorem tableFind_eq_some_of_mem {α : Type} {t : List ((Nat × String) × α)}
    {k : Nat × String} {v : α}
    (hnd : (t.map Prod.fst).Nodup) (hmem : (k, v) ∈ t) :
    tableFind t k = some v := by
  induction t with
  | nil => simp at hmem
  | cons s rest ih =>
    rw [List.mem_cons] at hmem
    simp only [List.map_cons, List.nodup_cons] at hnd
    rcases hmem with h | h
    · rw [← h]
      simp [tableFind]
    · have hk : s.1 ≠ k := by
        intro he
        exact hnd.1 (he ▸ List.mem_map_of_mem Prod.fst h)
      simp only [tableFind, if_neg hk]
      exact ih hnd.2 h

theorem filter_swap {α : Type} (p q : α → Bool) (l : List α) :
    (l.filter p).filter q = (l.filter q).filter p := by
  induction l with
  | nil => rfl
  | cons a l ih =>
    by_cases hp : p a = true <;> by_cases hq : q a = true <;>
      simp [List.filter_cons, hp, hq, ih]

theorem filter_eq_nil_of_all {α : Type} {q : α → Bool} {l : List α}
    (h : ∀ a ∈ l, q a = false) : l.filter q = [] := by
  induction l with
  | nil => rfl
  | cons a l ih =>
    have ha := h a (by simp)
    simp only [List.filter_cons, ha, Bool.false_eq_true, if_false]
    exact ih fun b hb => h b (List.mem_cons_of_mem a hb)

/-- After `tableInsert table key next_id`, the fresh id occupies exactly the
slot at `key`, provided every old slot holds a smaller id. -/
theorem cacheInv_new_slot (table : List ((Nat × String) × Nat)) (key : Nat × String)
    (next_id : Nat) (htlt : ∀ s ∈ table, s.2 < next_id) :
    (tableInsert table key next_id).filter (fun s => decide (s.2 = next_id))
      = [(key, next_id)] := by
  simp only [tableInsert, List.filter_cons, decide_eq_true_eq, if_true]
  have hrest : (table.filter (fun s => decide (s.1 ≠ key))).filter
      (fun s => decide (s.2 = next_id)) = [] := by
    refine filter_eq_nil_of_all fun s hs => ?_
    have := htlt s (List.mem_of_mem_filter hs)
    simp only [decide_eq_false_iff_not]
    omega
  rw [hrest]

/-- A slot that upgrades to an old entry survives `tableInsert` of a fresh id
under a different key. -/
theorem cacheInv_old_slot (table : List ((Nat × String) × Nat)) (key : Nat × String)
    (next_id : Nat) (fkey : Nat × String) (fid : Nat)
    (hne : fid ≠ next_id) (hkeyne : fkey ≠ key)
    (hfe : table.filter (fun s => decide (s.2 = fid)) = [(fkey, fid)]) :
    (tableInsert table key next_id).filter (fun s => decide (s.2 = fid))
      = [(fkey, fid)] := by
  simp only [tableInsert, List.filter_cons, decide_eq_true_eq]
  rw [if_neg (by omega)]
  rw [filter_swap, hfe]
  simp only [List.filter_cons, decide_eq_true_eq]
  rw [if_pos hkeyne]
  rfl

/-- Claim C1.  Directory-cache uniqueness invariant: for every live entry `e`
the cache holds exactly one slot, keyed `(parent_entry_id_or_0, e.name)`,
whose weak reference upgrades to `e` — so `lookup(e.parent, e.name)` returns
`e` — and this invariant is preserved both by `DirectoryCache::insert`
(which asserts the key is absent before allocating; for the assert-free root
case the caller's `get_root().is_none()` check is the extra hypothesis) and
by `DirectoryCache::prune` (which removes only slots whose weak reference is
dead). -/
theorem c1_directory_cache_uniqueness (c : DirectoryCache) (live : Nat → Bool)
    (hwf : CacheWF c) (hinv : CacheInv c live) :
    (∀ e ∈ c.entries, live e.id = true →
        c.lookup_id live (e.parent.getD DirectoryEntryId.NULL) e.name = some e.id) ∧
    (∀ parent node name e' c',
        c.insert live parent node name = some (e', c') →
        (parent = none → c.lookup_id live DirectoryEntryId.NULL "/" = none) →
        CacheInv c' (fun i => if i = e'.id then true else live i)) ∧
    CacheInv (c.prune live) live := by
  obtain ⟨hlt, htlt, hnd, hknd⟩ := hwf
  refine ⟨?_, ?_, ?_⟩
  · intro e he hlive
    have hfe := hinv e he hlive
    have hmem : (e.key, e.id) ∈ c.table := by
      have hmf : (e.key, e.id) ∈ c.table.filter (fun s => decide (s.2 = e.id)) := by
        rw [hfe]; exact List.mem_singleton.mpr rfl
      exact List.mem_of_mem_filter hmf
    have hfind : tableFind c.table e.key = some e.id :=
      tableFind_eq_some_of_mem hknd hmem
    unfold DirectoryCache.lookup_id
    rw [show (e.parent.getD DirectoryEntryId.NULL, e.name) = e.key from rfl, hfind]
    simp [hlive]
  · intro parent node name e' c' hins hroot
    unfold DirectoryCache.insert at hins
    split at hins
    · exact Option.noConfusion hins
    · split at hins
      · exact Option.noConfusion hins
      · rename_i hA hB
        simp only [Option.some.injEq, Prod.mk.injEq] at hins
        obtain ⟨he', hc'⟩ := hins
        subst he' hc'
        intro f hf hlivef
        have hfmem : f = (⟨c.next_id, name, parent.map (·.id), node⟩ : DirectoryEntry)
            ∨ f ∈ c.entries := List.mem_cons.mp hf
        rcases hfmem with hfeq | hfold
        · -- f is the freshly inserted entry
          subst hfeq
          exact cacheInv_new_slot c.table _ c.next_id htlt
        · -- f was already present and stays untouched
          have hflt : f.id < c.next_id := hlt f hfold
          have hfid : f.id ≠ c.next_id := by omega
          have hlivef' : live f.id = true := by
            simpa [hfid] using hlivef
          have hfe := hinv f hfold hlivef'
          have hmem : (f.key, f.id) ∈ c.table := by
            have hmf : (f.key, f.id) ∈ c.table.filter (fun s => decide (s.2 = f.id)) := by
              rw [hfe]; exact List.mem_singleton.mpr rfl
            exact List.mem_of_mem_filter hmf
          have hfind : tableFind c.table f.key = some f.id :=
            tableFind_eq_some_of_mem hknd hmem
          -- the fresh key differs from f's key, because f's slot upgrades
          -- while insert asserted (or the root caller checked) that the new
          -- key does not
          have hkeyne : f.key ≠
              (⟨c.next_id, name, parent.map (·.id), node⟩ : DirectoryEntry).key := by
            intro hkeq
            cases hparent : parent with
            | some p =>
              have hkey : (⟨c.next_id, name, parent.map (·.id), node⟩ :
                  DirectoryEntry).key = (p.id, name) := by
                rw [hparent]; rfl
              have hlook : (c.lookup live p name).isSome = true := by
                unfold DirectoryCache.lookup DirectoryCache.lookup_id
                rw [show ((p.id : Nat), name) = f.key from by rw [hkeq, hkey], hfind]
                simp [hlivef']
              exact hB (by rw [hparent]; exact hlook)
            | none =>
              have hname : name = "/" := by
                by_contra hne
                exact hA ⟨by rw [hparent]; rfl, hne⟩
              have hkey : (⟨c.next_id, name, parent.map (·.id), node⟩ :
                  DirectoryEntry).key = (DirectoryEntryId.NULL, "/") := by
                rw [hparent, hname]; rfl
              have hlook := hroot hparent
              unfold DirectoryCache.lookup_id at hlook
              rw [show ((DirectoryEntryId.NULL : Nat), "/") = f.key from by
                rw [hkeq, hkey], hfind] at hlook
              simp [hlivef'] at hlook
          exact cacheInv_old_slot c.table _ c.next_id f.key f.id hfid hkeyne hfe
  · intro f hf hlive
    have hfe := hinv f hf hlive
    show ((c.table.filter (fun s => live s.2)).filter (fun s => decide (s.2 = f.id)))
        = [(f.key, f.id)]
    rw [filter_swap, hfe]
    simp [List.filter_cons, hlive]

/-- Claim C2.  Entry identity: within a well-formed cache two entries have
equal `entry_id`s iff they are the same entry; an entry record is never
mutated by insert or prune (its id is stable while it is held); and a fresh
insert — e.g. re-resolving a `(parent, name)` after the old entry died and
its slot was reclaimed — always yields an id different from every id ever
allocated before. -/
theorem c2_entry_identity (c : DirectoryCache) (hwf : CacheWF c) :
    (∀ a ∈ c.entries, ∀ b ∈ c.entries, (a.id = b.id ↔ a = b)) ∧
    (∀ live parent node name e' c',
        c.insert live parent node name = some (e', c') →
        (∀ e ∈ c.entries, e'.id ≠ e.id) ∧ e' ∈ c'.entries ∧
        (∀ e ∈ c.entries, e ∈ c'.entries)) ∧
    (∀ live, (c.prune live).entries = c.entries) := by
  obtain ⟨hlt, htlt, hnd, hknd⟩ := hwf
  refine ⟨?_, ?_, ?_⟩
  · intro a ha b hb
    constructor
    · intro hid
      exact List.inj_on_of_nodup_map hnd ha hb hid
    · intro h; rw [h]
  · intro live parent node name e' c' hins
    unfold DirectoryCache.insert at hins
    split at hins
    · exact Option.noConfusion hins
    · split at hins
      · exact Option.noConfusion hins
      · simp only [Option.some.injEq, Prod.mk.injEq] at hins
        obtain ⟨he', hc'⟩ := hins
        refine ⟨?_, ?_, ?_⟩
        · intro e he
          have := hlt e he
          rw [← he']
          simp only
          omega
        · rw [← hc', ← he']
          exact List.mem_cons_self _ _
        · intro e he
          rw [← hc']
          exact List.mem_cons_of_mem _ he
  · intro live
    rfl

/-- Concrete cache used by the cache witnesses: the root entry, live. -/
def cacheW : DirectoryCache :=
  ⟨[((DirectoryEntryId.NULL, "/"), 1)], [⟨1, "/", none, ⟨0, 0, .Directory⟩⟩], 2⟩

def liveW : Nat → Bool := fun i => i == 1

/-- Witness for C1 at a concrete cache state. -/
theorem c1_directory_cache_uniqueness_witness :
    CacheWF cacheW ∧ CacheInv cacheW liveW ∧
    ((∀ e ∈ cacheW.entries, liveW e.id = true →
        cacheW.lookup_id liveW (e.parent.getD DirectoryEntryId.NULL) e.name = some e.id) ∧
    (∀ parent node name e' c',
        cacheW.insert liveW parent node name = some (e', c') →
        (parent = none → cacheW.lookup_id liveW DirectoryEntryId.NULL "/" = none) →
        CacheInv c' (fun i => if i = e'.id then true else liveW i)) ∧
    CacheInv (cacheW.prune liveW) liveW) :=
  ⟨by unfold CacheWF; decide, by unfold CacheInv; decide,
    c1_directory_cache_uniqueness cacheW liveW (by unfold CacheWF; decide)
      (by unfold CacheInv; decide)⟩

/-- Witness for C2 at a concrete cache state. -/
theorem c2_entry_identity_witness :
    CacheWF cacheW ∧
    ((∀ a ∈ cacheW.entries, ∀ b ∈ cacheW.entries, (a.id = b.id ↔ a = b)) ∧
    (∀ live parent node name e' c',
        cacheW.insert live parent node name = some (e', c') →
        (∀ e ∈ cacheW.entries, e'.id ≠ e.id) ∧ e' ∈ c'.entries ∧
        (∀ e ∈ cacheW.entries, e ∈ c'.entries)) ∧
    (∀ live, (cacheW.prune live).entries = cacheW.entries)) :=
  ⟨by unfold CacheWF; decide, c2_entry_identity cacheW (by unfold CacheWF; decide)⟩

/-! ## The RAM file system's file operations
(src/kernel/src/drivers/fs/ram.rs, `impl FileOperations for RamFileSystem`,
lines 107-143).  A `RamFileNode`'s contents are a byte vector; bytes are
modelled as `Nat`. -/

/-- RamFileSystem::read (ram.rs lines 108-125): copy
`data[offset..offset+read_size]` into the buffer prefix and return
`read_size`.  The result's second component is the prefix of the caller's
buffer that was written. -/
def ram_read (data : List Nat) (offset : Nat) (buf_len : Nat) : Nat × List Nat :=
  if offset > data.length then (0, [])
  else
    let bytes_remaining := data.length - offset
    let read_size := min buf_len bytes_remaining
    (read_size, (data.drop offset).take read_size)

/-- RamFileSystem::write (ram.rs lines 127-142): grow (zero-filling) to
`offset + buffer.len()` if needed, then splice the buffer in at `offset`;
returns the number of bytes written and the new contents. -/
def ram_write (data : List Nat) (offset : Nat) (buffer : List Nat) : Nat × List Nat :=
  let min_new_len := offset + buffer.length
  let data1 :=
    if min_new_len > data.length
    then data ++ List.replicate (min_new_len - data.length) 0
    else data
  (buffer.length, data1.take offset ++ buffer ++ data1.drop (offset + buffer.length))

/-- File (src/kernel/src/fs/mod.rs lines 305-316): open handle with the node
kind it refers to, the open mode and the cursor (`position`). -/
structure RFile where
  kind : FsNodeKind
  mode : FileMode
  position : Nat
deriving DecidableEq, Repr

/-- VirtualFileSystem::read (vfs.rs lines 409-430) specialised to a RAM file:
`assert_ne!(kind, Directory)` (modelled as a panic), the `mode != Read`
check, then the driver read at the cursor and the cursor advance. -/
def vfs_read (file : RFile) (data : List Nat) (buf_len : Nat) :
    PanicOr (Except IoError (Nat × List Nat × RFile)) :=
  if file.kind = .Directory then .panic "assertion failed: kind != Directory"
  else if file.mode ≠ .Read then .ret (.error .InvalidMode)
  else
    let r := ram_read data file.position buf_len
    .ret (.ok (r.1, r.2, { file with position := file.position + r.1 }))

/-- VirtualFileSystem::write (vfs.rs lines 434-457) specialised to a RAM
file: the directory assert, the `mode != Write` check, then the driver write
at the cursor and the cursor advance.  Returns the count, the new file
contents and the advanced handle. -/
def vfs_write (file : RFile) (data : List Nat) (buffer : List Nat) :
    PanicOr (Except IoError (Nat × List Nat × RFile)) :=
  if file.kind = .Directory then .panic "assertion failed: kind != Directory"
  else if file.mode ≠ .Write then .ret (.error .InvalidMode)
  else
    let r := ram_write data file.position buffer
    .ret (.ok (r.1, r.2, { file with position := file.position + r.1 }))

example : ram_write [] 0 [104, 105] = (2, [104, 105]) := by decide
example : ram_read [104, 105] 0 16 = (2, [104, 105]) := by decide
example : ram_read [104, 105] 5 16 = (0, []) := by decide
example : ram_write [1] 3 [9] = (1, [1, 0, 0, 9]) := by decide

/-- Claim C5.  RAM-file round trip: writing any byte sequence `B` at offset 0
to a freshly created (empty) RAM file returns `len(B)` and leaves the
contents equal to `B`; a subsequent read of `len(B)` bytes at offset 0
returns count `len(B)` and buffer contents `B`.  Stated both for the driver
operations and for the VFS `read`/`write` entry points on fresh handles. -/
theorem c5_ram_round_trip (B : List Nat) :
    (ram_write [] 0 B).1 = B.length ∧
    (ram_write [] 0 B).2 = B ∧
    ram_read (ram_write [] 0 B).2 0 B.length = (B.length, B) ∧
    vfs_write ⟨.File, .Write, 0⟩ [] B
      = .ret (.ok (B.length, B, ⟨.File, .Write, B.length⟩)) ∧
    vfs_read ⟨.File, .Read, 0⟩ (ram_write [] 0 B).2 B.length
      = .ret (.ok (B.length, B, ⟨.File, .Read, B.length⟩)) := by
  have hw : ram_write [] 0 B = (B.length, B) := by
    unfold ram_write
    cases B with
    | nil => rfl
    | cons b bs =>
      simp [List.take_of_length_le, List.drop_of_length_le]
  have hr : ram_read B 0 B.length = (B.length, B) := by
    unfold ram_read
    simp
  refine ⟨by rw [hw], by rw [hw], by rw [hw, hr], ?_, ?_⟩
  · unfold vfs_write
    simp [hw]
  · unfold vfs_read
    simp [hw, hr]

/-- Normal form of a sparse RAM write: old contents, a zero-filled gap up to
`k`, then the written bytes. -/
theorem ram_write_sparse_eq (data : List Nat) (k : Nat) (B : List Nat)
    (h : data.length < k) :
    (ram_write data k B).2 = data ++ List.replicate (k - data.length) 0 ++ B := by
  simp only [ram_write]
  rw [if_pos (by omega)]
  rw [List.drop_eq_nil_of_le (by simp; omega), List.append_nil]
  rw [List.take_append_eq_append_take, List.take_of_length_le (by omega),
    List.take_replicate]
  congr 3
  omega

/-- Claim C6.  Sparse writes on the RAM file system: writing `B` at offset
`k` to a file of length `old_len < k` returns `len(B)`, makes the file
`k + len(B)` bytes long, zero-fills `[old_len, k)` and places `B` at
`[k, k + len(B))`. -/
theorem c6_sparse_write (data : List Nat) (k : Nat) (B : List Nat)
    (h : data.length < k) :
    (ram_write data k B).1 = B.length ∧
    (ram_write data k B).2.length = k + B.length ∧
    (∀ i, data.length ≤ i → i < k → (ram_write data k B).2[i]? = some 0) ∧
    (∀ i, i < B.length → (ram_write data k B).2[k + i]? = B[i]?) := by
  have hE := ram_write_sparse_eq data k B h
  refine ⟨rfl, ?_, ?_, ?_⟩
  · rw [hE]
    simp only [List.length_append, List.length_replicate]
    omega
  · intro i h1 h2
    rw [hE, List.getElem?_append, if_pos (by simp; omega), List.getElem?_append,
      if_neg (by omega), List.getElem?_replicate, if_pos (by omega)]
  · intro i h3
    rw [hE, List.getElem?_append, if_neg (by simp; omega)]
    congr 1
    simp
    omega

/-- Witness for C6: write one byte at offset 3 of a one-byte file. -/
theorem c6_sparse_write_witness :
    ([7] : List Nat).length < 3 ∧
    ((ram_write [7] 3 [5]).1 = [5].length ∧
    (ram_write [7] 3 [5]).2.length = 3 + [5].length ∧
    (∀ i, ([7] : List Nat).length ≤ i → i < 3 → (ram_write [7] 3 [5]).2[i]? = some 0) ∧
    (∀ i, i < [5].length → (ram_write [7] 3 [5]).2[3 + i]? = [5][i]?)) :=
  ⟨by decide, c6_sparse_write [7] 3 [5] (by decide)⟩

/-! ## VirtualFileSystem::open (vfs.rs lines 353-392)

The entry-selection phase (lines 356-377) and the guarded finish (lines
379-391) are embedded separately.  `increment_link_count` /
`decrement_link_count` are called on the node's metadata block; their
definitions live in a part of `fs/mod.rs` not present in this source
snapshot, so they are modelled from the spec. -/

/-- Modelled from the spec: `FsNode::increment_link_count` is referenced by
`vfs.rs` but its definition (on the `FsNodeMetadata` block of spec §3) is
missing from the sources; per §3/§5 the metadata's link count is a reference
count that `open` increments by one. -/
def increment_link_count (link_count : Nat) : Nat := link_count + 1

/-- Modelled from the spec: `FsNode::decrement_link_count` is referenced by
`vfs.rs` but its definition is missing from the sources; per §5 ("On `open`
failure a scoped rollback guard guarantees the node's link count is
decremented on every error path") it decrements the count by one. -/
def decrement_link_count (link_count : Nat) : Nat := link_count - 1

/-- The open-relevant view of the resolved entry's node: its kind and the
current link count of its metadata block. -/
structure OpenNode where
  kind : FsNodeKind
  link_count : Nat
deriving DecidableEq, Repr

/-- Entry selection in `open` (vfs.rs lines 356-377): in a mutating mode an
existing directory is rejected with `NotAFile` and a missing entry is
created via `create_file` (outcome `created`); in a non-mutating mode the
entry must resolve (`EntryNotFound` otherwise) and its kind is not
inspected. -/
def open_select (mode : FileMode) (resolved : Option OpenNode)
    (created : Except IoError OpenNode) : Except IoError OpenNode :=
  if mode.is_mutating then
    match resolved with
    | some entry => if entry.kind = .Directory then .error .NotAFile else .ok entry
    | none => created
  else
    match resolved with
    | some entry => .ok entry
    | none => .error .EntryNotFound

/-- The guarded tail of `open` (vfs.rs lines 379-391 plus
src/kernel/src/util/defer.rs): increment the link count and arm the
`defer_handle!` guard; if the driver's `open` fails the `?`-return drops the
armed guard, which decrements the link count again; on success a descriptor
is allocated, the file is installed, and the guard is cancelled.  Returns
the result, the node's final link count, and the open-file table. -/
def open_finish (link_count : Nat) (driver_open : Except IoError RFile)
    (next_fd : Nat) (files : List (Nat × RFile)) :
    Except IoError Nat × Nat × List (Nat × RFile) :=
  let lc1 := increment_link_count link_count
  match driver_open with
  | .error e => (.error e, decrement_link_count lc1, files)
  | .ok f => (.ok next_fd, lc1, (next_fd, f) :: files)

/-- VirtualFileSystem::open (vfs.rs lines 353-392): selection then the
guarded finish.  `driver_open` is the driver's `file_operations().open` as a
function of the selected node.  The middle component of the result is the
selected node together with its final link count (`none` when selection
failed before any link count was touched). -/
def vfs_open (mode : FileMode) (resolved : Option OpenNode)
    (created : Except IoError OpenNode) (driver_open : OpenNode → Except IoError RFile)
    (next_fd : Nat) (files : List (Nat × RFile)) :
    Except IoError Nat × Option (OpenNode × Nat) × List (Nat × RFile) :=
  match open_select mode resolved created with
  | .error e => (.error e, none, files)
  | .ok entry =>
    let r := open_finish entry.link_count (driver_open entry) next_fd files
    (r.1, some (entry, r.2.1), r.2.2)

/-- Claim C4.  Open rollback atomicity: once an entry is selected, `open`
increments its node's link count; if the driver's `open` fails the armed
guard decrements it again before the error is returned, so the link count
after a failed open equals its value before the call (descriptor
installation itself — a map insert — cannot fail); on success the guard is
cancelled and the link count stays incremented by exactly one while the
descriptor is installed. -/
theorem c4_open_rollback (mode : FileMode) (resolved : Option OpenNode)
    (created : Except IoError OpenNode) (driver_open : OpenNode → Except IoError RFile)
    (next_fd : Nat) (files : List (Nat × RFile)) (entry : OpenNode)
    (hsel : open_select mode resolved created = .ok entry) :
    (∀ e, driver_open entry = .error e →
        vfs_open mode resolved created driver_open next_fd files
          = (.error e, some (entry, entry.link_count), files)) ∧
    (∀ f, driver_open entry = .ok f →
        vfs_open mode resolved created driver_open next_fd files
          = (.ok next_fd, some (entry, entry.link_count + 1), (next_fd, f) :: files)) := by
  constructor
  · intro e he
    unfold vfs_open
    rw [hsel]
    simp only [open_finish, he, increment_link_count, decrement_link_count]
    rfl
  · intro f hf
    unfold vfs_open
    rw [hsel]
    simp only [open_finish, hf, increment_link_count]

/-- Witness for C4: a read-mode open of an existing file node. -/
theorem c4_open_rollback_witness :
    open_select .Read (some ⟨.File, 4⟩) (.error .EntryNotFound) = .ok ⟨.File, 4⟩ ∧
    ((∀ e, (fun _ => .error .OperationNotSupported : OpenNode → Except IoError RFile)
          ⟨.File, 4⟩ = .error e →
        vfs_open .Read (some ⟨.File, 4⟩) (.error .EntryNotFound)
          (fun _ => .error .OperationNotSupported) 9 []
          = (.error e, some (⟨.File, 4⟩, (⟨.File, 4⟩ : OpenNode).link_count), [])) ∧
    (∀ f, (fun _ => .error .OperationNotSupported : OpenNode → Except IoError RFile)
          ⟨.File, 4⟩ = .ok f →
        vfs_open .Read (some ⟨.File, 4⟩) (.error .EntryNotFound)
          (fun _ => .error .OperationNotSupported) 9 []
          = (.ok 9, some (⟨.File, 4⟩, (⟨.File, 4⟩ : OpenNode).link_count + 1), [(9, f)]))) :=
  ⟨by rfl,
    c4_open_rollback .Read (some ⟨.File, 4⟩) (.error .EntryNotFound)
      (fun _ => .error .OperationNotSupported) 9 [] ⟨.File, 4⟩ (by rfl)⟩

/-- Claim C10.  The `NotAFile` rejection in `open` applies only to mutating
modes: a directory entry opened with `FileMode::Read` is selected without
any kind check, its link count is incremented, the driver's `open` is
invoked (its outcome decides the call), and on driver success a fresh
descriptor is installed and returned; only `Write`/`Append` (the mutating
modes) on a directory fail with `NotAFile`. -/
theorem c10_open_directory_read (entry : OpenNode)
    (created : Except IoError OpenNode) (driver_open : OpenNode → Except IoError RFile)
    (next_fd : Nat) (files : List (Nat × RFile))
    (hdir : entry.kind = .Directory) :
    open_select .Read (some entry) created = .ok entry ∧
    (∀ f, driver_open entry = .ok f →
        vfs_open .Read (some entry) created driver_open next_fd files
          = (.ok next_fd, some (entry, entry.link_count + 1), (next_fd, f) :: files)) ∧
    (∀ e, driver_open entry = .error e →
        vfs_open .Read (some entry) created driver_open next_fd files
          = (.error e, some (entry, entry.link_count), files)) ∧
    (∀ m : FileMode, m.is_mutating = true →
        open_select m (some entry) created = .error .NotAFile) := by
  have hsel : open_select .Read (some entry) created = .ok entry := rfl
  refine ⟨hsel, ?_, ?_, ?_⟩
  · intro f hf
    unfold vfs_open
    rw [hsel]
    simp only [open_finish, hf, increment_link_count]
  · intro e he
    unfold vfs_open
    rw [hsel]
    simp only [open_finish, he, increment_link_count, decrement_link_count]
    rfl
  · intro m hm
    unfold open_select
    rw [hm]
    simp only [if_true, hdir, if_pos rfl]

/-- Witness for C10: read-mode open of the root directory node. -/
theorem c10_open_directory_read_witness :
    (⟨.Directory, 2⟩ : OpenNode).kind = .Directory ∧
    (open_select .Read (some ⟨.Directory, 2⟩) (.error .EntryNotFound) = .ok ⟨.Directory, 2⟩ ∧
    (∀ f, (fun _ => .ok ⟨.Directory, .Read, 0⟩ : OpenNode → Except IoError RFile)
          ⟨.Directory, 2⟩ = .ok f →
        vfs_open .Read (some ⟨.Directory, 2⟩) (.error .EntryNotFound)
          (fun _ => .ok ⟨.Directory, .Read, 0⟩) 7 []
          = (.ok 7, some (⟨.Directory, 2⟩, (⟨.Directory, 2⟩ : OpenNode).link_count + 1),
              [(7, f)])) ∧
    (∀ e, (fun _ => .ok ⟨.Directory, .Read, 0⟩ : OpenNode → Except IoError RFile)
          ⟨.Directory, 2⟩ = .error e →
        vfs_open .Read (some ⟨.Directory, 2⟩) (.error .EntryNotFound)
          (fun _ => .ok ⟨.Directory, .Read, 0⟩) 7 []
          = (.error e, some (⟨.Directory, 2⟩, (⟨.Directory, 2⟩ : OpenNode).link_count), [])) ∧
    (∀ m : FileMode, m.is_mutating = true →
        open_select m (some ⟨.Directory, 2⟩) (.error .EntryNotFound) = .error .NotAFile)) :=
  ⟨by decide,
    c10_open_directory_read ⟨.Directory, 2⟩ (.error .EntryNotFound)
      (fun _ => .ok ⟨.Directory, .Read, 0⟩) 7 [] (by decide)⟩

/-! ## Path walker (vfs.rs lines 83-186)

State visible to `resolve_path`: the mount table (in `BTreeMap::values`
iteration order, ascending mount id), the directory cache (here as its
*upgradable view*: the slots whose weak reference currently upgrades, with
the entry inlined), the backing drivers' `directory_operations().lookup`
(a pure oracle keyed by the parent's `FsNode` — ramfs's lookup only reads
the parent's child map), the drivers' `read_directory` children oracle
(used by `read_directory`), and the `DirectoryEntryId` counter. -/

/-- FsNode::is_directory (src/kernel/src/fs/mod.rs lines 257-259), lifted to
the entry as the code writes `entry.node.is_directory()`. -/
def DirectoryEntry.is_directory (e : DirectoryEntry) : Bool :=
  e.node.kind = .Directory

/-- VfsMount (vfs.rs lines 531-543): mount id and the pinned root entry. -/
structure VfsMount where
  id : Nat
  root : DirectoryEntry
deriving DecidableEq, Repr

structure World where
  mounts : List VfsMount
  cache : List ((Nat × String) × DirectoryEntry)
  driver : NodeInfo → String → Except IoError (Option NodeInfo)
  children : NodeInfo → List (String × NodeInfo)
  next_id : Nat

/-- The mount-overlay test of the walker (vfs.rs lines 167-173):
`mnt.root.parent.as_ref().is_some_and(|p| p == top) && *mnt.root.name == *name`
(entry `==` is `entry_id` equality). -/
def mount_matches (m : VfsMount) (top : DirectoryEntry) (seg : String) : Bool :=
  (match m.root.parent with
   | some p => decide (p = top.id)
   | none => false) && decide (m.root.name = seg)

/-- The `for mnt in mount_table.values()` scan: first match wins. -/
def find_mount (mounts : List VfsMount) (top : DirectoryEntry) (seg : String) :
    Option VfsMount :=
  mounts.find? (fun m => mount_matches m top seg)

/-- VirtualFileSystem::get_cached_or_lookup (vfs.rs lines 85-108): cache
first, then the driver; a driver hit is inserted into the cache with a fresh
entry id. -/
def get_cached_or_lookup (w : World) (parent : DirectoryEntry) (name : String) :
    Except IoError (Option DirectoryEntry × World) :=
  match tableFind w.cache (parent.id, name) with
  | some cached => .ok (some cached, w)
  | none =>
    match w.driver parent.node name with
    | .error e => .error e
    | .ok none => .ok (none, w)
    | .ok (some node) =>
      let entry : DirectoryEntry := ⟨w.next_id, name, some parent.id, node⟩
      .ok (some entry,
        { w with cache := tableInsert w.cache (parent.id, name) entry,
                 next_id := w.next_id + 1 })

/-- One iteration of the `'segments` loop of `resolve_path` (vfs.rs lines
137-183), on a stack `top :: rest` (top of stack first).  Result `none`
means the whole resolution returns `Ok(None)` (missing segment). -/
def walk_segment (w : World) (top : DirectoryEntry) (rest : List DirectoryEntry)
    (seg : String) :
    Except IoError (Option (DirectoryEntry × List DirectoryEntry) × World) :=
  if ¬ top.is_directory then .error .NotADirectory
  else if seg = "." then .ok (some (top, rest), w)
  else if seg = ".." then
    match rest with
    | [] => .ok (some (top, []), w)
    | t :: r => .ok (some (t, r), w)
  else
    match find_mount w.mounts top seg with
    | some m => .ok (some (m.root, top :: rest), w)
    | none =>
      match get_cached_or_lookup w top seg with
      | .error e => .error e
      | .ok (none, w') => .ok (none, w')
      | .ok (some entry, w') => .ok (some (entry, top :: rest), w')

/-- The `'segments` loop over the remaining segments. -/
def walk (w : World) (top : DirectoryEntry) (rest : List DirectoryEntry) :
    List String → Except IoError (Option (DirectoryEntry × List DirectoryEntry) × World)
  | [] => .ok (some (top, rest), w)
  | seg :: segs =>
    match walk_segment w top rest seg with
    | .error e => .error e
    | .ok (none, w') => .ok (none, w')
    | .ok (some (t, r), w') => walk w' t r segs

/-- The walker's view of `DirectoryCache::get_root`. -/
def World.get_root (w : World) : Option DirectoryEntry :=
  tableFind w.cache (DirectoryEntryId.NULL, "/")

/-- VirtualFileSystem::resolve_path (vfs.rs lines 122-186): parse (parse
errors become `InvalidPath`; a relative path hits `todo!`), fetch the cached
root (`NoRootDirectory` if absent), run the loop over the segments after the
root, and return the final stack top. -/
def resolve_path (w : World) (s : String) :
    PanicOr (Except IoError (Option DirectoryEntry × World)) :=
  match Path.from_str s with
  | .panic msg => .panic msg
  | .ret (.error _) => .ret (.error .InvalidPath)
  | .ret (.ok p) =>
    if ¬ p.is_absolute then .panic "resolve relative paths"
    else
      match w.get_root with
      | none => .ret (.error .NoRootDirectory)
      | some root =>
        match walk w root [] (p.segments.drop 1) with
        | .error e => .ret (.error e)
        | .ok (none, w') => .ret (.ok (none, w'))
        | .ok (some (t, _), w') => .ret (.ok (some t, w'))

/-- VirtualFileSystem::stat (vfs.rs lines 518-520):
`resolve_path(path)?.ok_or(EntryNotFound)`. -/
def vfs_stat (w : World) (s : String) :
    PanicOr (Except IoError (DirectoryEntry × World)) :=
  match resolve_path w s with
  | .panic msg => .panic msg
  | .ret (.error e) => .ret (.error e)
  | .ret (.ok (none, _)) => .ret (.error .EntryNotFound)
  | .ret (.ok (some entry, w')) => .ret (.ok (entry, w'))

/-- Claim C8 (code_bug evidence).  The spec promises that a non-ASCII path
makes every path-taking operation fail with `InvalidPath`, but
`Path::from_str` hits `todo!("parse non-ascii paths")` — a kernel panic —
before any error can be produced, so `resolve_path` and everything built on
it (here: `stat`) panic instead of returning `InvalidPath`. -/
theorem c8_non_ascii_path_panics :
    Path.from_str "/café" = .panic "parse non-ascii paths" ∧
    (∀ w, resolve_path w "/café" = .panic "parse non-ascii paths") ∧
    (∀ w, resolve_path w "/café" ≠ .ret (.error .InvalidPath)) ∧
    (∀ w, vfs_stat w "/café" = .panic "parse non-ascii paths") := by
  have hp : Path.from_str "/café" = .panic "parse non-ascii paths" := by rfl
  have hres : ∀ w, resolve_path w "/café" = .panic "parse non-ascii paths" := by
    intro w
    unfold resolve_path
    rw [hp]
  refine ⟨hp, hres, ?_, ?_⟩
  · intro w h
    rw [hres w] at h
    exact PanicOr.noConfusion h
  · intro w
    unfold vfs_stat
    rw [hres w]

/-- A stack whose segments are all `"."` or `".."` never leaves the root. -/
theorem walk_dots (w : World) (root : DirectoryEntry) (segs : List String)
    (hrootdir : root.is_directory = true)
    (hdots : ∀ x ∈ segs, x = "." ∨ x = "..") :
    walk w root [] segs = .ok (some (root, []), w) := by
  induction segs with
  | nil => rfl
  | cons s ss ih =>
    have hseg : walk_segment w root [] s = .ok (some (root, []), w) := by
      rcases hdots s (List.mem_cons_self s ss) with h | h <;>
        · subst h
          unfold walk_segment
          simp [hrootdir]
    rw [walk, hseg]
    exact ih fun x hx => hdots x (List.mem_cons_of_mem s hx)

/-- Claim C9.  Dot segments: `.` leaves the resolution stack unchanged;
`..` pops the top entry unless only the root remains, in which case it is
ignored; consequently an absolute path whose non-root segments are all `.`
or `..` resolves to the root entry. -/
theorem c9_dot_segments (w : World) (root top : DirectoryEntry)
    (rest : List DirectoryEntry) (s : String) (p : Path)
    (htop : top.is_directory = true)
    (hparse : Path.from_str s = .ret (.ok p))
    (habs : p.is_absolute = true)
    (hdots : ∀ x ∈ p.segments.drop 1, x = "." ∨ x = "..")
    (hroot : w.get_root = some root)
    (hrootdir : root.is_directory = true) :
    walk_segment w top rest "." = .ok (some (top, rest), w) ∧
    walk_segment w top [] ".." = .ok (some (top, []), w) ∧
    (∀ t r, walk_segment w top (t :: r) ".." = .ok (some (t, r), w)) ∧
    resolve_path w s = .ret (.ok (some root, w)) := by
  refine ⟨?_, ?_, ?_, ?_⟩
  · unfold walk_segment
    simp [htop]
  · unfold walk_segment
    simp [htop]
  · intro t r
    unfold walk_segment
    simp [htop]
  · have hwd := walk_dots w root (p.segments.drop 1) hrootdir hdots
    rw [List.drop_one] at hwd
    simp [resolve_path, hparse, hroot, hwd, habs]

/-- The walker never touches the mount table: `get_cached_or_lookup` only
updates the cache and id counter. -/
theorem get_cached_or_lookup_mounts (w : World) (parent : DirectoryEntry)
    (name : String) (r : Option DirectoryEntry) (w' : World)
    (h : get_cached_or_lookup w parent name = .ok (r, w')) :
    w'.mounts = w.mounts := by
  unfold get_cached_or_lookup at h
  split at h
  · simp only [Except.ok.injEq, Prod.mk.injEq] at h
    rw [← h.2]
  · split at h
    · exact Except.noConfusion h
    · simp only [Except.ok.injEq, Prod.mk.injEq] at h
      rw [← h.2]
    · simp only [Except.ok.injEq, Prod.mk.injEq] at h
      rw [← h.2]

theorem walk_segment_mounts (w : World) (top : DirectoryEntry)
    (rest : List DirectoryEntry) (seg : String)
    (o : Option (DirectoryEntry × List DirectoryEntry)) (w' : World)
    (h : walk_segment w top rest seg = .ok (o, w')) :
    w'.mounts = w.mounts := by
  unfold walk_segment at h
  split at h
  · exact Except.noConfusion h
  · split at h
    · simp only [Except.ok.injEq, Prod.mk.injEq] at h
      rw [← h.2]
    · split at h
      · split at h <;>
          · simp only [Except.ok.injEq, Prod.mk.injEq] at h
            rw [← h.2]
      · split at h
        · simp only [Except.ok.injEq, Prod.mk.injEq] at h
          rw [← h.2]
        · split at h
          · exact Except.noConfusion h
          · rename_i hglu
            simp only [Except.ok.injEq, Prod.mk.injEq] at h
            rw [← h.2]
            exact get_cached_or_lookup_mounts _ _ _ _ _ hglu
          · rename_i hglu
            simp only [Except.ok.injEq, Prod.mk.injEq] at h
            rw [← h.2]
            exact get_cached_or_lookup_mounts _ _ _ _ _ hglu

theorem walk_mounts (segs : List String) (w : World) (top : DirectoryEntry)
    (rest : List DirectoryEntry)
    (o : Option (DirectoryEntry × List DirectoryEntry)) (w' : World)
    (h : walk w top rest segs = .ok (o, w')) :
    w'.mounts = w.mounts := by
  induction segs generalizing w top rest with
  | nil =>
    simp only [walk, Except.ok.injEq, Prod.mk.injEq] at h
    rw [← h.2]
  | cons s ss ih =>
    rw [walk] at h
    split at h
    · exact Except.noConfusion h
    · rename_i hseg
      simp only [Except.ok.injEq, Prod.mk.injEq] at h
      rw [← h.2]
      exact walk_segment_mounts _ _ _ _ _ _ hseg
    · rename_i hseg
      exact (ih _ _ _ h).trans (walk_segment_mounts _ _ _ _ _ _ hseg)

/-- Splitting a walk over an appended segment list. -/
theorem walk_append (l1 l2 : List String) (w : World) (top : DirectoryEntry)
    (rest : List DirectoryEntry) :
    walk w top rest (l1 ++ l2) =
      match walk w top rest l1 with
      | .error e => .error e
      | .ok (none, w') => .ok (none, w')
      | .ok (some (t, r), w') => walk w' t r l2 := by
  induction l1 generalizing w top rest with
  | nil => simp [walk]
  | cons s ss ih =>
    rw [List.cons_append, walk, walk]
    cases hseg : walk_segment w top rest s with
    | error e => rfl
    | ok pr =>
      obtain ⟨o, w'⟩ := pr
      cases o with
      | none => rfl
      | some tr =>
        obtain ⟨t, r⟩ := tr
        exact ih w' t r

/-- `List.find?` returns the member that satisfies the predicate when that
member is unique. -/
theorem find_eq_some_of_unique {α : Type} (p : α → Bool) (l : List α) (x : α)
    (hx : x ∈ l) (hpx : p x = true)
    (huniq : ∀ y ∈ l, p y = true → y = x) :
    l.find? p = some x := by
  induction l with
  | nil => cases hx
  | cons a l ih =>
    by_cases hpa : p a = true
    · have ha : a = x := huniq a (List.mem_cons_self a l) hpa
      subst ha
      exact List.find?_cons_of_pos l hpa
    · have hax : x ∈ l := by
        rcases List.mem_cons.mp hx with h | h
        · exact absurd (h ▸ hpx) hpa
        · exact h
      rw [List.find?_cons_of_neg l (by simpa using hpa)]
      exact ih hax fun y hy hpy => huniq y (List.mem_cons_of_mem a hy) hpy

/-- Claim C3.  Mount-point resolution: for a mount `m` whose root hangs at
name `nm` under entry `top` (uniquely, as `mount`'s target-occupied check
enforces), the walker handles the segment `nm` by the mount-overlay scan
*first* — it pushes `m.root` and leaves the world (cache, id counter)
untouched, never consulting the cache or the driver — and consequently
`resolve_path` applied to `m`'s mount point (a path whose prefix walks to
`top` and whose last segment is `nm`) returns `m.root`. -/
theorem c3_mount_point_resolution (w w1 : World) (m : VfsMount)
    (root top : DirectoryEntry) (rest : List DirectoryEntry)
    (segs : List String) (nm s : String) (p : Path)
    (hm : m ∈ w.mounts)
    (hparent : m.root.parent = some top.id)
    (hname : m.root.name = nm)
    (huniq : ∀ m' ∈ w.mounts, m'.root.parent = some top.id → m'.root.name = nm → m' = m)
    (hdot1 : nm ≠ ".") (hdot2 : nm ≠ "..")
    (htopdir : top.is_directory = true)
    (hparse : Path.from_str s = .ret (.ok p))
    (habs : p.is_absolute = true)
    (hsegs : p.segments.drop 1 = segs ++ [nm])
    (hroot : w.get_root = some root)
    (hwalk : walk w root [] segs = .ok (some (top, rest), w1)) :
    walk_segment w1 top rest nm = .ok (some (m.root, top :: rest), w1) ∧
    resolve_path w s = .ret (.ok (some m.root, w1)) := by
  have hmounts : w1.mounts = w.mounts := walk_mounts _ _ _ _ _ _ hwalk
  have hmm : mount_matches m top nm = true := by
    unfold mount_matches
    rw [hparent, hname]
    simp
  have hfind : find_mount w1.mounts top nm = some m := by
    unfold find_mount
    rw [hmounts]
    refine find_eq_some_of_unique _ _ m hm hmm fun y hy hpy => ?_
    unfold mount_matches at hpy
    rw [Bool.and_eq_true] at hpy
    obtain ⟨hpy1, hpy2⟩ := hpy
    refine huniq y hy ?_ (by simpa using hpy2)
    cases hyp : y.root.parent with
    | none => rw [hyp] at hpy1; exact Bool.noConfusion hpy1
    | some q =>
      rw [hyp] at hpy1
      simp only [decide_eq_true_eq] at hpy1
      rw [hpy1]
  have hseg : walk_segment w1 top rest nm = .ok (some (m.root, top :: rest), w1) := by
    unfold walk_segment
    rw [if_neg (by simp [htopdir]), if_neg hdot1, if_neg hdot2, hfind]
  refine ⟨hseg, ?_⟩
  have hw : walk w root [] (p.segments.drop 1)
      = .ok (some (m.root, top :: rest), w1) := by
    rw [hsegs, walk_append, hwalk]
    show walk w1 top rest [nm] = _
    simp only [walk, hseg]
  rw [List.drop_one] at hw
  simp [resolve_path, hparse, habs, hroot, hw]

/-- Concrete world for the walker witnesses: a root directory with one
mount (`mountW`, mounted at name `"m"` under the root) and an empty driver. -/
def rootW : DirectoryEntry := ⟨1, "/", none, ⟨0, 0, .Directory⟩⟩

def mrootW : DirectoryEntry := ⟨2, "m", some 1, ⟨1, 0, .Directory⟩⟩

def mountW : VfsMount := ⟨1, mrootW⟩

def worldW : World :=
  ⟨[mountW], [((DirectoryEntryId.NULL, "/"), rootW)],
    fun _ _ => .ok none, fun _ => [], 3⟩

/-- Witness for C3 on the concrete world: `resolve_path "/m"` returns the
mount root pushed by the overlay scan. -/
theorem c3_mount_point_resolution_witness :
    mountW ∈ worldW.mounts ∧
    mountW.root.parent = some rootW.id ∧
    mountW.root.name = "m" ∧
    (∀ m' ∈ worldW.mounts,
        m'.root.parent = some rootW.id → m'.root.name = "m" → m' = mountW) ∧
    ("m" ≠ ".") ∧ ("m" ≠ "..") ∧
    rootW.is_directory = true ∧
    Path.from_str "/m" = .ret (.ok ⟨["/", "m"]⟩) ∧
    (⟨["/", "m"]⟩ : Path).is_absolute = true ∧
    (⟨["/", "m"]⟩ : Path).segments.drop 1 = [] ++ ["m"] ∧
    worldW.get_root = some rootW ∧
    walk worldW rootW [] [] = .ok (some (rootW, []), worldW) ∧
    (walk_segment worldW rootW [] "m" = .ok (some (mountW.root, rootW :: []), worldW) ∧
    resolve_path worldW "/m" = .ret (.ok (some mountW.root, worldW))) :=
  ⟨by decide, by decide, by decide, by decide, by decide, by decide, by decide,
    by rfl, by decide, by decide, by rfl, by rfl,
    c3_mount_point_resolution worldW worldW mountW rootW rootW [] [] "m" "/m"
      ⟨["/", "m"]⟩ (by decide) (by decide) (by decide) (by decide) (by decide)
      (by decide) (by decide) (by rfl) (by decide) (by decide) (by rfl) (by rfl)⟩

/-- Witness for C9 on the concrete world, with path `"/../."`. -/
theorem c9_dot_segments_witness :
    rootW.is_directory = true ∧
    Path.from_str "/../." = .ret (.ok ⟨["/", "..", "."]⟩) ∧
    (⟨["/", "..", "."]⟩ : Path).is_absolute = true ∧
    (∀ x ∈ (⟨["/", "..", "."]⟩ : Path).segments.drop 1, x = "." ∨ x = "..") ∧
    worldW.get_root = some rootW ∧
    rootW.is_directory = true ∧
    (walk_segment worldW rootW [] "." = .ok (some (rootW, []), worldW) ∧
    walk_segment worldW rootW [] ".." = .ok (some (rootW, []), worldW) ∧
    (∀ t r, walk_segment worldW rootW (t :: r) ".." = .ok (some (t, r), worldW)) ∧
    resolve_path worldW "/../." = .ret (.ok (some rootW, worldW))) :=
  ⟨by decide, by rfl, by decide, by decide, by rfl, by decide,
    c9_dot_segments worldW rootW rootW [] "/../." ⟨["/", "..", "."]⟩
      (by decide) (by rfl) (by decide) (by decide) (by rfl) (by decide)⟩

/-! ## read_directory (vfs.rs lines 459-492, 709-760; ram.rs lines 248-260)

`DirectoryIterationContext` is a `BTreeMap<Arc<str>, DirectoryIterationEntry>`,
modelled as an association list kept sorted by key in ascending `String`
order (the map's iteration order); `insert` replaces an existing binding. -/

/-- DirectoryIterationEntry (vfs.rs lines 713-718): a `(name, node_id, kind)`
triple. -/
structure DirectoryIterationEntry where
  name : String
  id : Nat
  kind : FsNodeKind
deriving DecidableEq, Repr

/-- BTreeMap::insert for a `String`-keyed sorted association list. -/
def bt_insert {α : Type} (t : List (String × α)) (k : String) (v : α) :
    List (String × α) :=
  match t with
  | [] => [(k, v)]
  | s :: rest =>
    if k < s.1 then (k, v) :: s :: rest
    else if k = s.1 then (k, v) :: rest
    else s :: bt_insert rest k v

/-- BTreeMap::get for a `String`-keyed association list. -/
def ctxFind {α : Type} (t : List (String × α)) (k : String) : Option α :=
  match t with
  | [] => none
  | s :: rest => if s.1 = k then some s.2 else ctxFind rest k

/-- DirectoryIterationContext::insert (vfs.rs lines 738-750). -/
def ctx_insert (t : List (String × DirectoryIterationEntry)) (name : String)
    (id : Nat) (kind : FsNodeKind) : List (String × DirectoryIterationEntry) :=
  bt_insert t name ⟨name, id, kind⟩

/-- RamFileSystem::read_directory (ram.rs lines 248-260): insert a triple for
every `(name, node)` in the directory node's child map. -/
def ram_read_directory (children : List (String × NodeInfo))
    (ctx : List (String × DirectoryIterationEntry)) :
    List (String × DirectoryIterationEntry) :=
  children.foldl (fun t c => ctx_insert t c.1 c.2.node_id c.2.kind) ctx

/-- The mount-merge condition of `read_directory` (vfs.rs lines 481-489):
the mount root's parent exists and equals the directory (entry equality). -/
def mount_in_dir (m : VfsMount) (directory : DirectoryEntry) : Bool :=
  match m.root.parent with
  | some p => decide (p = directory.id)
  | none => false

/-- The triple `read_directory` inserts for a mount root (vfs.rs line 487). -/
def mount_trip (m : VfsMount) : DirectoryIterationEntry :=
  ⟨m.root.name, m.root.node.node_id, m.root.node.kind⟩

/-- The mount-merge loop of `read_directory` (vfs.rs lines 481-489). -/
def merge_mounts (directory : DirectoryEntry) (mounts : List VfsMount)
    (ctx : List (String × DirectoryIterationEntry)) :
    List (String × DirectoryIterationEntry) :=
  mounts.foldl
    (fun t m => if mount_in_dir m directory then bt_insert t m.root.name (mount_trip m)
                else t) ctx

/-- The context produced by `read_directory` for a resolved directory: the
driver pass over the child map, then the mount overlay pass. -/
def read_directory_core (directory : DirectoryEntry)
    (children : List (String × NodeInfo)) (mounts : List VfsMount) :
    List (String × DirectoryIterationEntry) :=
  merge_mounts directory mounts (ram_read_directory children [])

/-- VirtualFileSystem::read_directory (vfs.rs lines 462-492): resolve
(`EntryNotFound` when a segment is missing), require a directory
(`NotADirectory`), run the driver's `read_directory`, then merge the mounts
whose root parent is this directory. -/
def vfs_read_directory (w : World) (s : String) :
    PanicOr (Except IoError (List (String × DirectoryIterationEntry) × World)) :=
  match resolve_path w s with
  | .panic msg => .panic msg
  | .ret (.error e) => .ret (.error e)
  | .ret (.ok (none, _)) => .ret (.error .EntryNotFound)
  | .ret (.ok (some directory, w')) =>
    if ¬ directory.is_directory then .ret (.error .NotADirectory)
    else .ret (.ok
      (read_directory_core directory (w'.children directory.node) w'.mounts, w'))

/-! Lemmas about `bt_insert` and the two passes. -/

theorem ctxFind_bt_insert_self {α : Type} (t : List (String × α)) (k : String) (v : α) :
    ctxFind (bt_insert t k v) k = some v := by
  induction t with
  | nil =>
    show ctxFind [(k, v)] k = some v
    unfold ctxFind
    rw [if_pos rfl]
  | cons s rest ih =>
    unfold bt_insert
    by_cases h1 : k < s.1
    · rw [if_pos h1]
      unfold ctxFind
      rw [if_pos rfl]
    · rw [if_neg h1]
      by_cases h2 : k = s.1
      · rw [if_pos h2]
        unfold ctxFind
        rw [if_pos rfl]
      · rw [if_neg h2]
        unfold ctxFind
        rw [if_neg (show ¬ s.1 = k from fun hh => h2 hh.symm)]
        exact ih

theorem ctxFind_bt_insert_ne {α : Type} (t : List (String × α)) (k : String) (v : α)
    (q : String) (h : q ≠ k) :
    ctxFind (bt_insert t k v) q = ctxFind t q := by
  have hkq : ¬ ((k, v).1 = q) := fun hh => h hh.symm
  induction t with
  | nil =>
    show ctxFind [(k, v)] q = ctxFind ([] : List (String × α)) q
    unfold ctxFind
    rw [if_neg hkq]
    rfl
  | cons s rest ih =>
    unfold bt_insert
    by_cases h1 : k < s.1
    · rw [if_pos h1]
      show ctxFind ((k, v) :: s :: rest) q = ctxFind (s :: rest) q
      unfold ctxFind
      rw [if_neg hkq]
      rfl
    · rw [if_neg h1]
      by_cases h2 : k = s.1
      · rw [if_pos h2]
        show ctxFind ((k, v) :: rest) q = ctxFind (s :: rest) q
        unfold ctxFind
        rw [if_neg hkq, if_neg (show ¬ s.1 = q from fun hh => h (h2.trans hh).symm)]
      · rw [if_neg h2]
        show ctxFind (s :: bt_insert rest k v) q = ctxFind (s :: rest) q
        unfold ctxFind
        by_cases h3 : s.1 = q
        · rw [if_pos h3, if_pos h3]
        · rw [if_neg h3, if_neg h3]
          exact ih

theorem keys_bt_insert {α : Type} (t : List (String × α)) (k : String) (v : α) :
    ∀ x ∈ (bt_insert t k v).map Prod.fst, x = k ∨ x ∈ t.map Prod.fst := by
  induction t with
  | nil =>
    intro x hx
    rw [show bt_insert ([] : List (String × α)) k v = [(k, v)] from rfl] at hx
    simp only [List.map_cons, List.map_nil, List.mem_singleton] at hx
    exact Or.inl hx
  | cons s rest ih =>
    intro x hx
    unfold bt_insert at hx
    by_cases h1 : k < s.1
    · rw [if_pos h1] at hx
      simp only [List.map_cons, List.mem_cons] at hx
      rcases hx with h | h
      · exact Or.inl h
      · exact Or.inr (by rw [List.map_cons]; exact List.mem_cons.mpr h)
    · rw [if_neg h1] at hx
      by_cases h2 : k = s.1
      · rw [if_pos h2] at hx
        simp only [List.map_cons, List.mem_cons] at hx
        rcases hx with h | h
        · exact Or.inl h
        · exact Or.inr (by rw [List.map_cons]; exact List.mem_cons.mpr (Or.inr h))
      · rw [if_neg h2] at hx
        simp only [List.map_cons, List.mem_cons] at hx
        rcases hx with h | h
        · exact Or.inr (by rw [List.map_cons]; exact List.mem_cons.mpr (Or.inl h))
        · rcases ih x h with h' | h'
          · exact Or.inl h'
          · exact Or.inr (by rw [List.map_cons]; exact List.mem_cons.mpr (Or.inr h'))

theorem sorted_bt_insert {α : Type} (t : List (String × α)) (k : String) (v : α)
    (h : List.Sorted (· < ·) (t.map Prod.fst)) :
    List.Sorted (· < ·) ((bt_insert t k v).map Prod.fst) := by
  induction t with
  | nil =>
    show List.Sorted (· < ·) [k]
    exact List.sorted_singleton k
  | cons s rest ih =>
    rw [List.map_cons, List.sorted_cons] at h
    obtain ⟨hall, hrest⟩ := h
    unfold bt_insert
    by_cases h1 : k < s.1
    · rw [if_pos h1, List.map_cons, List.map_cons, List.sorted_cons]
      refine ⟨?_, List.sorted_cons.mpr ⟨hall, hrest⟩⟩
      intro b hb
      rcases List.mem_cons.mp hb with hb1 | hb2
      · rw [hb1]; exact h1
      · exact lt_trans h1 (hall b hb2)
    · by_cases h2 : k = s.1
      · rw [if_neg h1, if_pos h2, List.map_cons, List.sorted_cons]
        refine ⟨?_, hrest⟩
        intro b hb
        rw [h2]
        exact hall b hb
      · have h3 : s.1 < k := lt_of_le_of_ne (le_of_not_lt h1) (fun hh => h2 hh.symm)
        rw [if_neg h1, if_neg h2, List.map_cons, List.sorted_cons]
        refine ⟨?_, ih hrest⟩
        intro b hb
        rcases keys_bt_insert rest k v b hb with hb1 | hb2
        · rw [hb1]; exact h3
        · exact hall b hb2

/-- The driver pass leaves names outside the child map untouched. -/
theorem ram_read_directory_find_of_not_mem (nm : String) :
    ∀ (children : List (String × NodeInfo)) (ctx : List (String × DirectoryIterationEntry)),
      nm ∉ children.map Prod.fst →
      ctxFind (ram_read_directory children ctx) nm = ctxFind ctx nm := by
  intro children
  induction children with
  | nil => intro ctx _; rfl
  | cons c cs ih =>
    intro ctx hnot
    have h1 : nm ∉ cs.map Prod.fst := fun hh =>
      hnot (by rw [List.map_cons]; exact List.mem_cons_of_mem _ hh)
    have h2 : nm ≠ c.1 := fun hh =>
      hnot (by rw [List.map_cons, hh]; exact List.mem_cons_self _ _)
    show ctxFind (ram_read_directory cs (ctx_insert ctx c.1 c.2.node_id c.2.kind)) nm
        = ctxFind ctx nm
    rw [ih _ h1]
    exact ctxFind_bt_insert_ne ctx c.1 _ nm h2

/-- Every child-map binding lands in the context with its driver triple. -/
theorem ram_read_directory_find (nm : String) (nd : NodeInfo) :
    ∀ (children : List (String × NodeInfo)) (ctx : List (String × DirectoryIterationEntry)),
      (children.map Prod.fst).Nodup → (nm, nd) ∈ children →
      ctxFind (ram_read_directory children ctx) nm = some ⟨nm, nd.node_id, nd.kind⟩ := by
  intro children
  induction children with
  | nil => intro ctx _ hmem; cases hmem
  | cons c cs ih =>
    intro ctx hnodup hmem
    rw [List.map_cons, List.nodup_cons] at hnodup
    show ctxFind (ram_read_directory cs (ctx_insert ctx c.1 c.2.node_id c.2.kind)) nm
        = some ⟨nm, nd.node_id, nd.kind⟩
    rcases List.mem_cons.mp hmem with h | h
    · have hc1 : c.1 = nm := by rw [← h]
      have hc2 : c.2 = nd := by rw [← h]
      have hnot : nm ∉ cs.map Prod.fst := hc1 ▸ hnodup.1
      rw [ram_read_directory_find_of_not_mem nm cs _ hnot]
      rw [show ctx_insert ctx c.1 c.2.node_id c.2.kind
          = bt_insert ctx nm (⟨nm, nd.node_id, nd.kind⟩ : DirectoryIterationEntry) by
        rw [hc1, hc2]; rfl]
      exact ctxFind_bt_insert_self ctx nm _
    · exact ih _ hnodup.2 h

/-- The mount pass leaves a name untouched when no matching mount has it. -/
theorem merge_mounts_find_of_no_mount (directory : DirectoryEntry) (nm : String) :
    ∀ (mounts : List VfsMount) (ctx : List (String × DirectoryIterationEntry)),
      (∀ m ∈ mounts, mount_in_dir m directory = true → m.root.name ≠ nm) →
      ctxFind (merge_mounts directory mounts ctx) nm = ctxFind ctx nm := by
  intro mounts
  induction mounts with
  | nil => intro ctx _; rfl
  | cons m0 ms ih =>
    intro ctx hno
    show ctxFind (merge_mounts directory ms
        (if mount_in_dir m0 directory then bt_insert ctx m0.root.name (mount_trip m0)
         else ctx)) nm = ctxFind ctx nm
    have hrest := fun m hm h1 h2 =>
      hno m (List.mem_cons_of_mem m0 hm) h1 h2
    by_cases hm0 : mount_in_dir m0 directory = true
    · rw [if_pos hm0, ih _ hrest]
      exact ctxFind_bt_insert_ne ctx _ _ nm
        (fun hh => hno m0 (List.mem_cons_self m0 ms) hm0 hh.symm)
    · rw [if_neg hm0]
      exact ih _ hrest

/-- Once the context holds `v` at `nm`, a mount pass whose matching
same-named mounts all carry triple `v` keeps it there. -/
theorem merge_mounts_find_stable (directory : DirectoryEntry) (nm : String)
    (v : DirectoryIterationEntry) :
    ∀ (mounts : List VfsMount) (ctx : List (String × DirectoryIterationEntry)),
      ctxFind ctx nm = some v →
      (∀ m ∈ mounts, mount_in_dir m directory = true → m.root.name = nm → mount_trip m = v) →
      ctxFind (merge_mounts directory mounts ctx) nm = some v := by
  intro mounts
  induction mounts with
  | nil => intro ctx hv _; exact hv
  | cons m0 ms ih =>
    intro ctx hv hsame
    show ctxFind (merge_mounts directory ms
        (if mount_in_dir m0 directory then bt_insert ctx m0.root.name (mount_trip m0)
         else ctx)) nm = some v
    have hrest := fun m hm h1 h2 =>
      hsame m (List.mem_cons_of_mem m0 hm) h1 h2
    by_cases hm0 : mount_in_dir m0 directory = true
    · rw [if_pos hm0]
      by_cases hname : m0.root.name = nm
      · refine ih _ ?_ hrest
        rw [← hname, ctxFind_bt_insert_self,
          hsame m0 (List.mem_cons_self m0 ms) hm0 hname]
      · refine ih _ ?_ hrest
        rw [ctxFind_bt_insert_ne ctx _ _ nm (fun hh => hname hh.symm)]
        exact hv
    · rw [if_neg hm0]
      exact ih _ hv hrest

/-- A matching mount's triple is present after the mount pass, provided all
matching mounts that share its name carry the same triple. -/
theorem merge_mounts_find_mount (directory : DirectoryEntry) (m : VfsMount) :
    ∀ (mounts : List VfsMount) (ctx : List (String × DirectoryIterationEntry)),
      m ∈ mounts → mount_in_dir m directory = true →
      (∀ m' ∈ mounts, mount_in_dir m' directory = true →
          m'.root.name = m.root.name → mount_trip m' = mount_trip m) →
      ctxFind (merge_mounts directory mounts ctx) m.root.name = some (mount_trip m) := by
  intro mounts
  induction mounts with
  | nil => intro ctx hm; cases hm
  | cons m0 ms ih =>
    intro ctx hm hmatch huniq
    show ctxFind (merge_mounts directory ms
        (if mount_in_dir m0 directory then bt_insert ctx m0.root.name (mount_trip m0)
         else ctx)) m.root.name = some (mount_trip m)
    have hrest := fun m' hm' h1 h2 =>
      huniq m' (List.mem_cons_of_mem m0 hm') h1 h2
    by_cases hm0 : mount_in_dir m0 directory = true
    · rw [if_pos hm0]
      by_cases hname : m0.root.name = m.root.name
      · refine merge_mounts_find_stable directory m.root.name (mount_trip m) ms _ ?_ hrest
        rw [← hname, ctxFind_bt_insert_self,
          huniq m0 (List.mem_cons_self m0 ms) hm0 hname]
      · have hm' : m ∈ ms := by
          rcases List.mem_cons.mp hm with h | h
          · exact absurd (congrArg (fun x => x.root.name) h.symm) hname
          · exact h
        exact ih _ hm' hmatch hrest
    · rw [if_neg hm0]
      have hm' : m ∈ ms := by
        rcases List.mem_cons.mp hm with h | h
        · exact absurd (h ▸ hmatch) hm0
        · exact h
      exact ih _ hm' hmatch hrest

theorem sorted_ram_read_directory :
    ∀ (children : List (String × NodeInfo)) (ctx : List (String × DirectoryIterationEntry)),
      List.Sorted (· < ·) (ctx.map Prod.fst) →
      List.Sorted (· < ·) ((ram_read_directory children ctx).map Prod.fst) := by
  intro children
  induction children with
  | nil => intro ctx h; exact h
  | cons c cs ih =>
    intro ctx h
    exact ih _ (sorted_bt_insert ctx c.1 _ h)

theorem sorted_merge_mounts (directory : DirectoryEntry) :
    ∀ (mounts : List VfsMount) (ctx : List (String × DirectoryIterationEntry)),
      List.Sorted (· < ·) (ctx.map Prod.fst) →
      List.Sorted (· < ·) ((merge_mounts directory mounts ctx).map Prod.fst) := by
  intro mounts
  induction mounts with
  | nil => intro ctx h; exact h
  | cons m0 ms ih =>
    intro ctx h
    show List.Sorted (· < ·) ((merge_mounts directory ms
        (if mount_in_dir m0 directory then bt_insert ctx m0.root.name (mount_trip m0)
         else ctx)).map Prod.fst)
    by_cases hm0 : mount_in_dir m0 directory = true
    · rw [if_pos hm0]
      exact ih _ (sorted_bt_insert ctx _ _ h)
    · rw [if_neg hm0]
      exact ih _ h

/-- Claim C7.  Directory-listing merge: `read_directory` of a resolved
directory returns the context built by the driver pass over the directory's
child map followed by the mount pass; that context holds the driver triple
`(name, node_id, kind)` for every child whose name no matching mount
shadows, holds the mount triple for every mount whose root's parent is this
directory (replacing a same-named driver child; when several matching
mounts share a name they carry the same triple by the mount-table
uniqueness `mount` maintains), and its entries are ordered by name. -/
theorem c7_read_directory_merge (w w' : World) (s : String) (directory : DirectoryEntry)
    (hres : resolve_path w s = .ret (.ok (some directory, w')))
    (hdir : directory.is_directory = true)
    (hnodup : ((w'.children directory.node).map Prod.fst).Nodup) :
    vfs_read_directory w s = .ret (.ok
      (read_directory_core directory (w'.children directory.node) w'.mounts, w')) ∧
    (∀ nm nd, (nm, nd) ∈ w'.children directory.node →
      (∀ m ∈ w'.mounts, mount_in_dir m directory = true → m.root.name ≠ nm) →
      ctxFind (read_directory_core directory (w'.children directory.node) w'.mounts) nm
        = some ⟨nm, nd.node_id, nd.kind⟩) ∧
    (∀ m ∈ w'.mounts, mount_in_dir m directory = true →
      (∀ m' ∈ w'.mounts, mount_in_dir m' directory = true →
          m'.root.name = m.root.name → mount_trip m' = mount_trip m) →
      ctxFind (read_directory_core directory (w'.children directory.node) w'.mounts)
          m.root.name = some (mount_trip m)) ∧
    List.Sorted (· < ·)
      ((read_directory_core directory (w'.children directory.node) w'.mounts).map
        Prod.fst) := by
  refine ⟨?_, ?_, ?_, ?_⟩
  · simp [vfs_read_directory, hres, hdir]
  · intro nm nd hmem hno
    unfold read_directory_core
    rw [merge_mounts_find_of_no_mount directory nm w'.mounts _ hno]
    exact ram_read_directory_find nm nd _ _ hnodup hmem
  · intro m hm hmatch huniq
    unfold read_directory_core
    exact merge_mounts_find_mount directory m w'.mounts _ hm hmatch huniq
  · unfold read_directory_core
    exact sorted_merge_mounts directory w'.mounts _
      (sorted_ram_read_directory _ _ (by simp))

/-- World for the C7 witness: the root directory has driver children `"a"`
and `"m"`, and the mount `mountW` overlays the name `"m"`. -/
def worldW2 : World :=
  ⟨[mountW], [((DirectoryEntryId.NULL, "/"), rootW)],
    fun _ _ => .ok none,
    fun n => if n = rootW.node then [("a", ⟨0, 5, .File⟩), ("m", ⟨0, 6, .Directory⟩)]
             else [],
    3⟩

/-- Witness for C7: listing `"/"` in `worldW2`. -/
theorem c7_read_directory_merge_witness :
    resolve_path worldW2 "/" = .ret (.ok (some rootW, worldW2)) ∧
    rootW.is_directory = true ∧
    ((worldW2.children rootW.node).map Prod.fst).Nodup ∧
    (vfs_read_directory worldW2 "/" = .ret (.ok
      (read_directory_core rootW (worldW2.children rootW.node) worldW2.mounts, worldW2)) ∧
    (∀ nm nd, (nm, nd) ∈ worldW2.children rootW.node →
      (∀ m ∈ worldW2.mounts, mount_in_dir m rootW = true → m.root.name ≠ nm) →
      ctxFind (read_directory_core rootW (worldW2.children rootW.node) worldW2.mounts) nm
        = some ⟨nm, nd.node_id, nd.kind⟩) ∧
    (∀ m ∈ worldW2.mounts, mount_in_dir m rootW = true →
      (∀ m' ∈ worldW2.mounts, mount_in_dir m' rootW = true →
          m'.root.name = m.root.name → mount_trip m' = mount_trip m) →
      ctxFind (read_directory_core rootW (worldW2.children rootW.node) worldW2.mounts)
          m.root.name = some (mount_trip m)) ∧
    List.Sorted (· < ·)
      ((read_directory_core rootW (worldW2.children rootW.node) worldW2.mounts).map
        Prod.fst)) :=
  ⟨by rfl, by decide, by decide,
    c7_read_directory_merge worldW2 worldW2 "/" rootW (by rfl) (by decide) (by decide)⟩

end Riptide
